import Mathlib

/-!
Verification of the gRPC-gateway URI matching and message-building core
(`server/v2/api/grpcgateway/uri.go`).

Strings are modelled as `List Char` (Go strings are byte/rune sequences; all
inputs of interest are ASCII).  The Go `regexp` machinery is shallowly
embedded: `patternToRegex` is modelled by implementing the exact string
rewriting its two `ReplaceAllStringFunc` passes perform, and the generated
anchored regular expressions (whose only group forms are `(.+)` and
`([^/]+)`, all other characters being literals or escaped literals) are
given an executable leftmost/greedy backtracking matcher, which coincides
with Go's RE2 submatch semantics on this fragment.
-/

set_option maxRecDepth 10000

/-- Model of `strings.TrimRight(s, "/")`: remove every trailing `'/'`. -/
def trimRightSlash (l : List Char) : List Char :=
  (l.reverse.dropWhile (fun c => c = '/')).reverse

/-- The characters Go's `regexp.QuoteMeta` escapes. -/
def isSpecialChar (c : Char) : Bool :=
  c = '\\' || c = '.' || c = '+' || c = '*' || c = '?' || c = '(' || c = ')' ||
  c = '|' || c = '[' || c = ']' || c = '{' || c = '}' || c = '^' || c = '$'

/-- Model of `regexp.QuoteMeta`: prefix every special character with a backslash. -/
def quoteMeta : List Char → List Char
  | [] => []
  | c :: cs => if isSpecialChar c then '\\' :: c :: quoteMeta cs else c :: quoteMeta cs

/-- The escaped terminator `=\*\*\}` that ends a `\x7bname=**\x7d` wildcard in the
escaped template text. -/
def term1 : List Char := ['=', '\\', '*', '\\', '*', '\\', '}']

/-- Matcher for the tail of regex `r1 = \\\x7b([^\x7d]+?)=\\\*\\\*\\\x7d` after its
leading `\\\x7b`: lazily find the shortest nonempty run of non-`'\x7d'` characters
followed by `term1`; returns the captured run and the remaining input. -/
def match1Go (acc : List Char) : List Char → Option (List Char × List Char)
  | [] => none
  | c :: cs =>
    if c = '}' then none
    else if term1.isPrefixOf cs then some (acc ++ [c], cs.drop term1.length)
    else match1Go (acc ++ [c]) cs

def match1After (l : List Char) : Option (List Char × List Char) :=
  match1Go [] l

/-- Wildcard-name extraction of pass 1, regex `\\\x7b(.+?)=` on the matched text:
the shortest nonempty prefix of the capture that is followed by an `'='`
(the terminator provides a final `'='`, so this is the first char plus
everything up to the next `'='`). -/
def name1From (cap : List Char) : List Char :=
  match cap with
  | [] => []
  | c :: cs => c :: cs.takeWhile (fun c' => c' ≠ '=')

/-- Matcher for the tail of regex `r2 = \\\x7b([^\x7d]+)\\\x7d` after its leading
`\\\x7b`: the capture cannot contain `'\x7d'`, so the match succeeds exactly when
the first `'\x7d'` is preceded by a backslash and the capture (everything before
that backslash) is nonempty. -/
def match2Go (acc : List Char) : List Char → Option (List Char × List Char)
  | [] => none
  | c :: cs =>
    if c = '}' then none
    else if c = '\\' ∧ cs.head? = some '}' then
      (if acc.isEmpty then none else some (acc, cs.drop 1))
    else match2Go (acc ++ [c]) cs

def match2After (l : List Char) : Option (List Char × List Char) :=
  match2Go [] l

/-- The replacement text `(.+)` inserted for a `\x7bname=**\x7d` wildcard. -/
def starGroup : List Char := ['(', '.', '+', ')']

/-- The replacement text `([^/]+)` inserted for a `\x7bname\x7d` wildcard. -/
def segGroup : List Char := ['(', '[', '^', '/', ']', '+', ')']

/-- Pass 1 of `patternToRegex`, fueled (each step consumes at least one
character, so any fuel above the input length is exact): scan the escaped
template left to right; at each `\\\x7b` try the lazy wildcard match of `r1`,
replacing a matched `\x7bname=**\x7d` with `(.+)` and collecting its name;
otherwise move one character forward (leftmost non-overlapping
`ReplaceAllStringFunc` semantics). -/
def pass1F : Nat → List Char → List Char × List (List Char)
  | 0, _ => ([], [])
  | _ + 1, [] => ([], [])
  | fuel + 1, c :: cs =>
    if c = '\\' ∧ cs.head? = some '{' then
      match match1After cs.tail with
      | some pr =>
        (starGroup ++ (pass1F fuel pr.2).1, name1From pr.1 :: (pass1F fuel pr.2).2)
      | none =>
        ('\\' :: (pass1F fuel cs).1, (pass1F fuel cs).2)
    else
      (c :: (pass1F fuel cs).1, (pass1F fuel cs).2)

/-- Pass 1 of `patternToRegex`: `r1.ReplaceAllStringFunc` on the escaped
template, with its names in replacement (left-to-right) order. -/
def pass1 (l : List Char) : List Char × List (List Char) :=
  pass1F (l.length + 1) l

/-- Pass 2 of `patternToRegex`, fueled: scan the output of pass 1, replacing
each remaining escaped `\x7bname\x7d` wildcard (greedy `r2` semantics) with
`([^/]+)` and collecting names in replacement order. -/
def pass2F : Nat → List Char → List Char × List (List Char)
  | 0, _ => ([], [])
  | _ + 1, [] => ([], [])
  | fuel + 1, c :: cs =>
    if c = '\\' ∧ cs.head? = some '{' then
      match match2After cs.tail with
      | some pr =>
        (segGroup ++ (pass2F fuel pr.2).1, pr.1 :: (pass2F fuel pr.2).2)
      | none =>
        ('\\' :: (pass2F fuel cs).1, (pass2F fuel cs).2)
    else
      (c :: (pass2F fuel cs).1, (pass2F fuel cs).2)

/-- Pass 2 of `patternToRegex`: `r2.ReplaceAllStringFunc` on the output of
pass 1. -/
def pass2 (l : List Char) : List Char × List (List Char) :=
  pass2F (l.length + 1) l

/-- Model of `patternToRegex`: escape the template, run the two replacement
passes, anchor the result, and return it with the ordered wildcard names
(pass-1 names first, then pass-2 names, as in the source where both passes
append to the same slice). -/
def patternToRegex (pattern : List Char) : List Char × List (List Char) :=
  let escaped := quoteMeta pattern
  let p1 := pass1 escaped
  let p2 := pass2 p1.1
  ('^' :: (p2.1 ++ ['$']), p1.2 ++ p2.2)

/-- `descend n = [n, n-1, ..., 1]`: candidate capture lengths, longest first
(greedy quantifier preference). -/
def descend : Nat → List Nat
  | 0 => []
  | n + 1 => (n + 1) :: descend n

/-- Fueled backtracking matcher for the anchored regexes `patternToRegex`
produces.  `(.+)` captures one or more non-newline characters and `([^/]+)`
one or more non-`'/'` characters, both greedy; `\c` and ordinary characters
are literals; `^`/`$` anchor at start/end.  This is RE2's (= Go `regexp`'s)
leftmost-greedy submatch semantics on this regex fragment.  Returns the list
of capture-group values in group order on success. -/
def reMatchF : Nat → List Char → List Char → Option (List (List Char))
  | 0, _, _ => none
  | fuel + 1, pat, input =>
    match pat with
    | [] => if input = [] then some [] else none
    | c :: ps =>
      if c = '^' then reMatchF fuel ps input
      else if c = '$' then (if input = [] then reMatchF fuel ps input else none)
      else if c = '(' then
        if ps.take 3 = ['.', '+', ')'] then
          (descend (input.takeWhile (fun ch => ch ≠ '\n')).length).findSome? (fun k =>
            match reMatchF fuel (ps.drop 3) (input.drop k) with
            | some caps => some (input.take k :: caps)
            | none => none)
        else if ps.take 6 = ['[', '^', '/', ']', '+', ')'] then
          (descend (input.takeWhile (fun ch => ch ≠ '/')).length).findSome? (fun k =>
            match reMatchF fuel (ps.drop 6) (input.drop k) with
            | some caps => some (input.take k :: caps)
            | none => none)
        else
          match input with
          | [] => none
          | c' :: rest => if c' = c then reMatchF fuel ps rest else none
      else if c = '\\' then
        match ps with
        | c2 :: ps2 =>
          (match input with
           | [] => none
           | c' :: rest => if c' = c2 then reMatchF fuel ps2 rest else none)
        | [] =>
          (match input with
           | [] => none
           | c' :: rest => if c' = '\\' then reMatchF fuel [] rest else none)
      else
        match input with
        | [] => none
        | c' :: rest => if c' = c then reMatchF fuel ps rest else none

/-- Model of `regexp.MustCompile(pat).FindStringSubmatch(input)` restricted to
the capture groups: the fuel bound exceeds the maximal recursion depth
(each step consumes at least one pattern character). -/
def reMatch (pat input : List Char) : Option (List (List Char)) :=
  reMatchF (pat.length + input.length + 1) pat input

/-- Model of the `URIMatch` struct.  `params` models the Go
`map[string]string` as an association list with distinct keys (written by
`mapInsert`, which has Go-map overwrite semantics). -/
structure URIMatch where
  queryInputName : List Char
  params : List (List Char × List Char)
deriving DecidableEq, Repr

/-- `URIMatch.HasParams`: whether any wildcard params were found. -/
def URIMatch.hasParams (uri : URIMatch) : Bool :=
  0 < uri.params.length

/-- Go-map style insertion: overwrite the value if the key is present,
otherwise append the binding. -/
def mapInsert : List (List Char × List Char) → List Char × List Char →
    List (List Char × List Char)
  | [], p => [p]
  | q :: m, p => if q.1 = p.1 then p :: m else q :: mapInsert m p

/-- The parameter map built by `matchURI`'s loop
`for i, name := range wildcardNames { params[name] = matches[i+1] }`:
the i-th wildcard name is paired with the i-th capture group. -/
def buildParams (names caps : List (List Char)) : List (List Char × List Char) :=
  (names.zip caps).foldl (fun acc p => mapInsert acc p) []

/-- Go-map lookup on the template table, modelled as first-match lookup in an
association list (the table's keys are unique). -/
def findVal (k : List Char) : List (List Char × List Char) → Option (List Char)
  | [] => none
  | (k', v) :: rest => if k' = k then some v else findVal k rest

/-- First `some` produced by `f` along the list: the loop
`for getPattern, queryInputName := range ...` returning on the first template
whose pattern matches, for one fixed iteration order. -/
def firstMatch (f : α → Option β) : List α → Option β
  | [] => none
  | a :: l =>
    match f a with
    | some b => some b
    | none => firstMatch f l

/-- One iteration of `matchURI`'s wildcard loop for the (already trimmed)
request path `uri` and one table entry: trim the template, compile it, and
accept only when the submatch result has more than one entry
(`matches != nil && len(matches) > 1`). -/
def tryPattern (uri getPattern queryInputName : List Char) : Option URIMatch :=
  let trimmed := trimRightSlash getPattern
  let pr := patternToRegex trimmed
  match reMatch pr.1 uri with
  | some caps =>
    if 0 < caps.length then some ⟨queryInputName, buildParams pr.2 caps⟩ else none
  | none => none

/-- Model of `matchURI`: trim the path, try the exact map lookup, then iterate
the table (in the given order — Go's map iteration order is unspecified, so
the order is an explicit input of the model). -/
def matchURI (uri : List Char) (table : List (List Char × List Char)) : Option URIMatch :=
  let u := trimRightSlash uri
  match findVal u table with
  | some inputName => some ⟨inputName, []⟩
  | none => firstMatch (fun e => tryPattern u e.1 e.2) table

/-! ## Message builder (`createMessageFromJSON`, `createMessage`) -/

/-- `MaxBodySize = 1 << 20`. -/
def MaxBodySize : Nat := 1 <<< 20

/-- Error outcomes of the message builders, one per `fmt.Errorf` site. -/
inductive BuildErr where
  | unknownType
  | constructionFailed
  | bodyDecode (e : String)
  | decoderCreate (e : String)
  | paramDecode (e : String)
deriving DecidableEq, Repr

/-- One struct field of a request-message type: its Go field name
(`field.Name`) and its protobuf struct tag (`field.Tag.Get("protobuf")`). -/
structure FieldDesc where
  name : List Char
  protoTag : List Char
deriving DecidableEq, Repr

/-- The external capabilities the message builders consume (type registry,
reflective construction, the jsonpb codec on the size-limited body, and the
mapstructure weak decoder).  `T` is the registry's type-descriptor type, `M`
the message-instance type. -/
structure MsgEnv (T M : Type) where
  messageType : List Char → Option T
  newInstance : T → Option M
  fields : T → List FieldDesc
  jsonDecode : List Nat → M → Except String M
  newDecoder : M → Except String (List (List Char × List Char) → Except String M)

/-- Model of `createMessageFromJSON`.  The second component counts how many
times `r.Body.Close()` runs before the function returns: the `defer` is
registered only after the unknown-type and construction-failure returns, so
those paths contribute no close.  The body passed to the decoder is truncated
by `io.LimitReader(r.Body, MaxBodySize)`. -/
def createMessageFromJSON {T M : Type} (env : MsgEnv T M) (m : URIMatch)
    (body : List Nat) : Except BuildErr M × Nat :=
  match env.messageType m.queryInputName with
  | none => (.error .unknownType, 0)
  | some t =>
    match env.newInstance t with
    | none => (.error .constructionFailed, 0)
    | some msg =>
      match env.jsonDecode (body.take MaxBodySize) msg with
      | .error e => (.error (.bodyDecode e), 1)
      | .ok msg2 => (.ok msg2, 1)

/-- Is `c` a `\w` character of Go regexp (`[0-9A-Za-z_]`)? -/
def isWordChar (c : Char) : Bool :=
  c.isAlphanum || c = '_'

/-- Leftmost match of the regex `name=(\w+)` on a protobuf tag string: scan
for `name=` followed by at least one word character and capture the maximal
word-character run. -/
def findProtoName : List Char → Option (List Char)
  | [] => none
  | c :: cs =>
    if c = 'n' ∧ "ame=".toList.isPrefixOf cs ∧ ((cs.drop 4).takeWhile isWordChar) ≠ [] then
      some ((cs.drop 4).takeWhile isWordChar)
    else findProtoName cs

/-- The serialization name of a field, extracted from its protobuf tag
(`none` when the tag has no `name=` entry). -/
def tagName (f : FieldDesc) : Option (List Char) :=
  findProtoName f.protoTag

/-- The inner loop of `createMessage`'s field mapping: the first field (in
declaration order) whose tag name equals the parameter key (`break` on the
first hit). -/
def firstField (fields : List FieldDesc) (key : List Char) : Option FieldDesc :=
  fields.find? (fun f => decide (tagName f = some key))

/-- The `fieldMap` built by `createMessage`: for each parameter, if some
field's tag name equals its key, map that field's Go name to the parameter
value; parameters matching no field are skipped. -/
def buildFieldMap (fields : List FieldDesc) (params : List (List Char × List Char)) :
    List (List Char × List Char) :=
  params.foldl (fun acc p =>
    match firstField fields p.1 with
    | some f => mapInsert acc (f.name, p.2)
    | none => acc) []

/-- Model of `createMessage`: resolve and construct the type; if the match
has params, build the field map and run the mapstructure weak decoder on it,
otherwise return the fresh instance unchanged. -/
def createMessage {T M : Type} (env : MsgEnv T M) (m : URIMatch) : Except BuildErr M :=
  match env.messageType m.queryInputName with
  | none => .error .unknownType
  | some t =>
    match env.newInstance t with
    | none => .error .constructionFailed
    | some msg =>
      if m.hasParams then
        let fieldMap := buildFieldMap (env.fields t) m.params
        match env.newDecoder msg with
        | .error e => .error (.decoderCreate e)
        | .ok dec =>
          match dec fieldMap with
          | .error e => .error (.paramDecode e)
          | .ok msg2 => .ok msg2
      else .ok msg


/-- A regex text with no unescaped `'('` (escaped pairs `\c` are skipped as
units, matching how the matcher consumes them). -/
def noGroup : List Char → Bool
  | [] => true
  | c :: ps =>
    if c = '\\' then
      match ps with
      | [] => true
      | _ :: ps2 => noGroup ps2
    else (c != '(') && noGroup ps

/-! ## Concrete environments used by witnesses and counterexamples -/

/-- An environment whose type registry resolves no name. -/
def envNoType : MsgEnv Nat Nat :=
  ⟨fun _ => none, fun _ => some 0, fun _ => [], fun _ m => Except.ok m,
   fun _ => Except.ok (fun _ => Except.ok 0)⟩

/-- An environment that resolves every name to a fieldless type. -/
def envResolving : MsgEnv Nat Nat :=
  ⟨fun _ => some 0, fun _ => some 0, fun _ => [], fun _ m => Except.ok m,
   fun _ => Except.ok (fun _ => Except.ok 0)⟩

/-- An environment with two fields, `alpha` and `beta` by tag name, whose
decoder returns the field map it was given (so the witness can observe
exactly which parameters reached the decoder). -/
def envTwoFields : MsgEnv Nat (List (List Char × List Char)) :=
  ⟨fun _ => some 0,
   fun _ => some [],
   fun _ => [⟨"A".toList, "varint,1,opt,name=alpha".toList⟩,
             ⟨"B".toList, "bytes,2,opt,name=beta".toList⟩],
   fun _ m => Except.ok m,
   fun _ => Except.ok (fun fm => Except.ok fm)⟩

/-! ## Helper lemmas: literal (wildcard-free) patterns produce no captures -/

theorem noGroup_esc (c : Char) (ps : List Char) : noGroup ('\\' :: c :: ps) = noGroup ps := rfl

theorem noGroup_cons (c : Char) (ps : List Char) (hc : ¬ c = '\\') :
    noGroup (c :: ps) = ((c != '(') && noGroup ps) := by
  rw [noGroup.eq_def]
  dsimp only
  rw [if_neg hc]

theorem noGroup_quoteMeta_append : ∀ (l rest : List Char),
    noGroup (quoteMeta l ++ rest) = noGroup rest := by
  intro l
  induction l with
  | nil => intro rest; rfl
  | cons c cs ih =>
    intro rest
    by_cases hs : isSpecialChar c = true
    · simp only [quoteMeta, hs, if_pos, List.cons_append]
      rw [noGroup_esc]
      exact ih rest
    · simp only [quoteMeta, hs, Bool.false_eq_true, if_false, List.cons_append]
      have hc1 : ¬ c = '\\' := by
        intro h; subst h; simp [isSpecialChar] at hs
      have hc2 : (c != '(') = true := by
        have h2 : ¬ c = '(' := by intro h; subst h; simp [isSpecialChar] at hs
        simpa using h2
      rw [noGroup_cons c _ hc1, hc2, Bool.true_and]
      exact ih rest

theorem reMatchF_noGroup : ∀ (fuel : Nat) (pat input : List Char) (caps : List (List Char)),
    noGroup pat = true → reMatchF fuel pat input = some caps → caps = [] := by
  intro fuel
  induction fuel with
  | zero => intro pat input caps _ h; simp [reMatchF] at h
  | succ n ih =>
    intro pat input caps hng h
    rcases pat with _ | ⟨c, ps⟩
    · simp only [reMatchF] at h
      split at h
      · exact (Option.some.injEq _ _ ▸ h).symm
      · exact (Option.noConfusion h)
    · simp only [reMatchF] at h
      by_cases h1 : c = '^'
      · subst h1
        rw [if_pos rfl] at h
        rw [noGroup_cons _ _ (by decide), Bool.and_eq_true] at hng
        exact ih ps input caps hng.2 h
      · rw [if_neg h1] at h
        by_cases h2 : c = '$'
        · subst h2
          rw [if_pos rfl] at h
          rw [noGroup_cons _ _ (by decide), Bool.and_eq_true] at hng
          split at h
          · exact ih ps input caps hng.2 h
          · exact (Option.noConfusion h)
        · rw [if_neg h2] at h
          by_cases h3 : c = '('
          · subst h3
            rw [noGroup_cons _ _ (by decide)] at hng
            simp at hng
          · rw [if_neg h3] at h
            by_cases h4 : c = '\\'
            · subst h4
              rw [if_pos rfl] at h
              split at h
              · -- ps = c2 :: ps2
                rename_i c2 ps2
                rw [noGroup_esc] at hng
                split at h
                · exact (Option.noConfusion h)
                · split at h
                  · exact ih ps2 _ caps hng h
                  · exact (Option.noConfusion h)
              · -- ps = []
                split at h
                · exact (Option.noConfusion h)
                · split at h
                  · exact ih [] _ caps rfl h
                  · exact (Option.noConfusion h)
            · rw [if_neg h4] at h
              rw [noGroup_cons _ _ h4, Bool.and_eq_true] at hng
              split at h
              · exact (Option.noConfusion h)
              · split at h
                · exact ih ps _ caps hng.2 h
                · exact (Option.noConfusion h)

/-! ## A template whose compiled pattern collects no wildcard names compiles
to its own escaped literal -/

theorem pass1F_snd_nil : ∀ (fuel : Nat) (l : List Char), l.length < fuel →
    ∀ out, pass1F fuel l = (out, []) → out = l := by
  intro fuel
  induction fuel with
  | zero => intro l hl; omega
  | succ n ih =>
    intro l hl out h
    rcases l with _ | ⟨c, cs⟩
    · simp only [pass1F, Prod.mk.injEq] at h
      exact h.1.symm
    · simp only [pass1F] at h
      by_cases hcond : c = '\\' ∧ cs.head? = some '{'
      · rw [if_pos hcond] at h
        cases hm : match1After cs.tail with
        | some pr =>
          rw [hm] at h
          simp only [Prod.mk.injEq] at h
          exact absurd h.2 (List.cons_ne_nil _ _)
        | none =>
          rw [hm] at h
          simp only [Prod.mk.injEq] at h
          have hlen : cs.length < n := by
            simp only [List.length_cons] at hl
            omega
          rcases hp : pass1F n cs with ⟨o1, n1⟩
          rw [hp] at h
          have hn1 : n1 = [] := h.2
          have ho1 : o1 = cs := ih cs hlen o1 (by rw [hp, hn1])
          rw [← h.1, ho1, hcond.1]
      · rw [if_neg hcond] at h
        simp only [Prod.mk.injEq] at h
        have hlen : cs.length < n := by
          simp only [List.length_cons] at hl
          omega
        rcases hp : pass1F n cs with ⟨o1, n1⟩
        rw [hp] at h
        have hn1 : n1 = [] := h.2
        have ho1 : o1 = cs := ih cs hlen o1 (by rw [hp, hn1])
        rw [← h.1, ho1]

theorem pass2F_snd_nil : ∀ (fuel : Nat) (l : List Char), l.length < fuel →
    ∀ out, pass2F fuel l = (out, []) → out = l := by
  intro fuel
  induction fuel with
  | zero => intro l hl; omega
  | succ n ih =>
    intro l hl out h
    rcases l with _ | ⟨c, cs⟩
    · simp only [pass2F, Prod.mk.injEq] at h
      exact h.1.symm
    · simp only [pass2F] at h
      by_cases hcond : c = '\\' ∧ cs.head? = some '{'
      · rw [if_pos hcond] at h
        cases hm : match2After cs.tail with
        | some pr =>
          rw [hm] at h
          simp only [Prod.mk.injEq] at h
          exact absurd h.2 (List.cons_ne_nil _ _)
        | none =>
          rw [hm] at h
          simp only [Prod.mk.injEq] at h
          have hlen : cs.length < n := by
            simp only [List.length_cons] at hl
            omega
          rcases hp : pass2F n cs with ⟨o1, n1⟩
          rw [hp] at h
          have hn1 : n1 = [] := h.2
          have ho1 : o1 = cs := ih cs hlen o1 (by rw [hp, hn1])
          rw [← h.1, ho1, hcond.1]
      · rw [if_neg hcond] at h
        simp only [Prod.mk.injEq] at h
        have hlen : cs.length < n := by
          simp only [List.length_cons] at hl
          omega
        rcases hp : pass2F n cs with ⟨o1, n1⟩
        rw [hp] at h
        have hn1 : n1 = [] := h.2
        have ho1 : o1 = cs := ih cs hlen o1 (by rw [hp, hn1])
        rw [← h.1, ho1]

theorem pass1_snd_nil (l : List Char) (h : (pass1 l).2 = []) : (pass1 l).1 = l := by
  rcases hp : pass1 l with ⟨o, ns⟩
  rw [hp] at h
  simp only at h
  subst h
  simp only
  exact pass1F_snd_nil (l.length + 1) l (by omega) o hp

theorem pass2_snd_nil (l : List Char) (h : (pass2 l).2 = []) : (pass2 l).1 = l := by
  rcases hp : pass2 l with ⟨o, ns⟩
  rw [hp] at h
  simp only at h
  subst h
  simp only
  exact pass2F_snd_nil (l.length + 1) l (by omega) o hp

/-- If `patternToRegex` collects no wildcard names, the generated regex is
just the anchored escaped template. -/
theorem patternToRegex_nil_names (t : List Char) (h : (patternToRegex t).2 = []) :
    (patternToRegex t).1 = '^' :: (quoteMeta t ++ ['$']) := by
  simp only [patternToRegex] at h ⊢
  have h1 : (pass1 (quoteMeta t)).2 = [] := (List.append_eq_nil.mp h).1
  have h2 : (pass2 (pass1 (quoteMeta t)).1).2 = [] := (List.append_eq_nil.mp h).2
  have e2 : (pass2 (pass1 (quoteMeta t)).1).1 = (pass1 (quoteMeta t)).1 :=
    pass2_snd_nil _ h2
  rw [e2, pass1_snd_nil _ h1]

/-- A table entry whose trimmed template has no wildcards can never be
selected on the wildcard-iteration path: its compiled regex has no capture
groups, so `len(matches) > 1` fails. -/
theorem tryPattern_no_wildcards (uri pat name : List Char)
    (h : (patternToRegex (trimRightSlash pat)).2 = []) :
    tryPattern uri pat name = none := by
  simp only [tryPattern]
  cases hm : reMatch (patternToRegex (trimRightSlash pat)).1 uri with
  | none => rfl
  | some caps =>
    have hng : noGroup (patternToRegex (trimRightSlash pat)).1 = true := by
      rw [patternToRegex_nil_names _ h]
      rw [noGroup_cons _ _ (by decide), noGroup_quoteMeta_append]
      decide
    have hc : caps = [] := reMatchF_noGroup _ _ _ _ hng hm
    subst hc
    simp

theorem firstMatch_none {α β : Type} (f : α → Option β) :
    ∀ l : List α, (∀ a ∈ l, f a = none) → firstMatch f l = none := by
  intro l
  induction l with
  | nil => intro _; rfl
  | cons a l ih =>
    intro h
    simp only [firstMatch]
    rw [h a (by simp)]
    exact ih (fun x hx => h x (by simp [hx]))

/-- On a table all of whose templates are literal (no wildcards), `matchURI`
is exactly the exact-lookup fast path on the untrimmed keys. -/
theorem matchURI_all_literal (uri : List Char) (table : List (List Char × List Char))
    (h : ∀ e ∈ table, (patternToRegex (trimRightSlash e.1)).2 = []) :
    matchURI uri table =
      (findVal (trimRightSlash uri) table).map (fun n => URIMatch.mk n []) := by
  simp only [matchURI]
  cases hf : findVal (trimRightSlash uri) table with
  | some v => simp
  | none =>
    simp only [Option.map_none']
    exact firstMatch_none _ table (fun e he => tryPattern_no_wildcards _ _ _ (h e he))

/-! ## Trailing-separator and table-lookup lemmas -/

theorem trimRightSlash_append_slash (l : List Char) :
    trimRightSlash (l ++ ['/']) = trimRightSlash l := by
  simp [trimRightSlash, List.reverse_append, List.dropWhile_cons]

theorem dropWhile_head_true (p : Char → Bool) :
    ∀ (l : List Char) c t, l.dropWhile p = c :: t → p c = false := by
  intro l
  induction l with
  | nil => intro c t h; simp at h
  | cons a l ih =>
    intro c t h
    rw [List.dropWhile_cons] at h
    split_ifs at h with ha
    · exact ih c t h
    · cases h
      simpa using ha

/-- The trimmed request path never ends in a `'/'`. -/
theorem trimRightSlash_no_trailing (l s : List Char) :
    trimRightSlash l ≠ s ++ ['/'] := by
  intro h
  have hr := congrArg List.reverse h
  rw [trimRightSlash, List.reverse_reverse, List.reverse_append] at hr
  simp only [List.reverse_cons, List.reverse_nil, List.nil_append, List.singleton_append] at hr
  have := dropWhile_head_true (fun c => c = '/') l.reverse '/' s.reverse hr
  simp at this

theorem findVal_of_mem (k v : List Char) :
    ∀ table : List (List Char × List Char), (table.map Prod.fst).Nodup →
      (k, v) ∈ table → findVal k table = some v := by
  intro table
  induction table with
  | nil => intro _ h; simp at h
  | cons e rest ih =>
    intro hnd hmem
    rcases e with ⟨k', v'⟩
    simp only [findVal]
    simp only [List.map_cons, List.nodup_cons] at hnd
    by_cases hk : k' = k
    · subst hk
      rw [if_pos rfl]
      rcases List.mem_cons.mp hmem with heq | hmem'
      · cases heq
        rfl
      · exfalso
        exact hnd.1 (List.mem_map.mpr ⟨(k', v), hmem', rfl⟩)
    · rw [if_neg hk]
      rcases List.mem_cons.mp hmem with heq | hmem'
      · cases heq
        exact absurd rfl hk
      · exact ih hnd.2 hmem'

theorem findVal_perm (k : List Char) :
    ∀ {l1 l2 : List (List Char × List Char)}, l1.Perm l2 →
      (l1.map Prod.fst).Nodup → findVal k l1 = findVal k l2 := by
  intro l1 l2 hperm
  induction hperm with
  | nil => intro _; rfl
  | cons x h ih =>
    intro hnd
    rcases x with ⟨k', v'⟩
    simp only [findVal]
    simp only [List.map_cons, List.nodup_cons] at hnd
    by_cases hk : k' = k
    · simp only [if_pos hk]
    · simp only [if_neg hk]
      exact ih hnd.2
  | swap x y l =>
    intro hnd
    rcases x with ⟨kx, vx⟩
    rcases y with ⟨ky, vy⟩
    simp only [List.map_cons, List.nodup_cons, List.mem_cons] at hnd
    simp only [findVal]
    by_cases hx : kx = k
    · by_cases hy : ky = k
      · exact absurd (Or.inl (hy.trans hx.symm)) hnd.1
      · simp only [if_pos hx, if_neg hy]
    · by_cases hy : ky = k
      · simp only [if_neg hx, if_pos hy]
      · simp only [if_neg hx, if_neg hy]
  | trans h1 h2 ih1 ih2 =>
    intro hnd
    refine (ih1 hnd).trans (ih2 ?_)
    exact ((h1.map Prod.fst).nodup_iff).mp hnd

theorem firstMatch_perm {α β : Type} (f : α → Option β) :
    ∀ {l1 l2 : List α}, l1.Perm l2 →
      (∀ a ∈ l1, ∀ b ∈ l1, (f a).isSome → (f b).isSome → a = b) →
      firstMatch f l1 = firstMatch f l2 := by
  intro l1 l2 hperm
  induction hperm with
  | nil => intro _; rfl
  | cons x h ih =>
    intro huniq
    simp only [firstMatch]
    cases hx : f x with
    | some b => rfl
    | none =>
      exact ih (fun a ha b hb => huniq a (by simp [ha]) b (by simp [hb]))
  | swap x y l =>
    intro huniq
    simp only [firstMatch]
    cases hx : f x with
    | some bx =>
      cases hy : f y with
      | some by' =>
        have hxy : y = x :=
          huniq y (by simp) x (by simp) (by simp [hy]) (by simp [hx])
        subst hxy
        rw [hx] at hy
        cases hy
        rfl
      | none => rfl
    | none =>
      cases hy : f y with
      | some by' => rfl
      | none => rfl
  | trans h1 h2 ih1 ih2 =>
    intro huniq
    refine (ih1 huniq).trans (ih2 ?_)
    intro a ha b hb
    exact huniq a (h1.mem_iff.mpr ha) b (h1.mem_iff.mpr hb)

/-! ## Field-map lemmas for `createMessage` -/

theorem mapInsert_not_mem (p : List Char × List Char) :
    ∀ m : List (List Char × List Char), p.1 ∉ m.map Prod.fst →
      mapInsert m p = m ++ [p] := by
  intro m
  induction m with
  | nil => intro _; rfl
  | cons q m ih =>
    intro h
    simp only [List.map_cons, List.mem_cons] at h
    push_neg at h
    simp only [mapInsert]
    rw [if_neg (fun hq => h.1 hq.symm)]
    rw [ih h.2]
    rfl

theorem firstField_some (fields : List FieldDesc) (k : List Char) (f : FieldDesc)
    (h : firstField fields k = some f) : f ∈ fields ∧ tagName f = some k := by
  refine ⟨List.mem_of_find?_eq_some h, ?_⟩
  have := List.find?_some h
  exact of_decide_eq_true this

theorem firstField_none (fields : List FieldDesc) (k : List Char)
    (h : ∀ f ∈ fields, ¬ tagName f = some k) : firstField fields k = none := by
  apply List.find?_eq_none.mpr
  intro f hf
  simp only [decide_eq_true_eq]
  exact h f hf

theorem buildFieldMap_go (fields : List FieldDesc)
    (hf : (fields.map FieldDesc.name).Nodup) :
    ∀ (ps acc : List (List Char × List Char)),
      (ps.map Prod.fst).Nodup →
      (∀ p ∈ ps, ∀ f, firstField fields p.1 = some f → f.name ∉ acc.map Prod.fst) →
      ps.foldl (fun acc p =>
        match firstField fields p.1 with
        | some f => mapInsert acc (f.name, p.2)
        | none => acc) acc =
      acc ++ ps.filterMap (fun p => (firstField fields p.1).map (fun f => (f.name, p.2))) := by
  intro ps
  induction ps with
  | nil => intro acc _ _; simp
  | cons p ps ih =>
    intro acc hnd hacc
    simp only [List.foldl_cons, List.filterMap_cons]
    simp only [List.map_cons, List.nodup_cons] at hnd
    cases hm : firstField fields p.1 with
    | none =>
      simp only [Option.map_none']
      exact ih acc hnd.2 (fun q hq f hfq => hacc q (by simp [hq]) f hfq)
    | some f =>
      simp only [Option.map_some']
      rw [mapInsert_not_mem (f.name, p.2) acc (hacc p (by simp) f hm)]
      rw [ih (acc ++ [(f.name, p.2)]) hnd.2 ?_]
      · rw [List.append_assoc]
        rfl
      · intro q hq f' hf'q
        simp only [List.map_append, List.mem_append, List.map_cons, List.map_nil,
          List.mem_singleton, List.mem_cons]
        push_neg
        refine ⟨hacc q (by simp [hq]) f' hf'q, ?_, by simp⟩
        intro hname
        have hfm := firstField_some fields p.1 f hm
        have hfm' := firstField_some fields q.1 f' hf'q
        have : f' = f := List.inj_on_of_nodup_map hf hfm'.1 hfm.1 hname
        subst this
        have hkeq : p.1 = q.1 := by
          have h1 := hfm.2
          have h2 := hfm'.2
          rw [h1] at h2
          exact (Option.some.injEq _ _ ▸ h2)
        exact hnd.1 (hkeq ▸ List.mem_map.mpr ⟨q, hq, rfl⟩)

/-- Under distinct field names and distinct parameter keys, the field map is
exactly the matched parameters, each sent to its field's in-memory name. -/
theorem buildFieldMap_eq (fields : List FieldDesc) (ps : List (List Char × List Char))
    (hf : (fields.map FieldDesc.name).Nodup) (hnd : (ps.map Prod.fst).Nodup) :
    buildFieldMap fields ps =
      ps.filterMap (fun p => (firstField fields p.1).map (fun f => (f.name, p.2))) := by
  unfold buildFieldMap
  rw [buildFieldMap_go fields hf ps [] hnd (fun p _ f _ => by simp)]
  rfl

/-- A parameter key matching no field leaves the field map unchanged. -/
theorem buildFieldMap_append_unmatched (fields : List FieldDesc)
    (ps : List (List Char × List Char)) (k v : List Char)
    (hk : ∀ f ∈ fields, ¬ tagName f = some k) :
    buildFieldMap fields (ps ++ [(k, v)]) = buildFieldMap fields ps := by
  unfold buildFieldMap
  rw [List.foldl_append]
  simp only [List.foldl_cons, List.foldl_nil]
  rw [firstField_none fields k hk]

/-! ## Claim theorems -/

/-- C1.  The claim asserts that the ordered wildcard-name list aligns 1:1
with the capture groups left-to-right, in particular for a template with a
single-segment wildcard left of a multi-segment one.  The code appends all
`\x7bname=**\x7d` names (pass 1) before all `\x7bname\x7d` names (pass 2), while the
capture groups sit in textual order, so for `v1/\x7ba\x7d/\x7bb=**\x7d` the name list
is `[b, a]` against groups `([^/]+)` then `(.+)`: `matchURI` on `v1/x/y/z`
binds `b ↦ x` and `a ↦ y/z`, the swap of what the claim (and the code's own
`\x7bbaz: qux\x7d` doc example) requires. -/
theorem c1_mixed_wildcards_swapped :
    patternToRegex "v1/\x7ba\x7d/\x7bb=**\x7d".toList =
      ("^v1/([^/]+)/(.+)$".toList, ["b".toList, "a".toList]) ∧
    matchURI "v1/x/y/z".toList [("v1/\x7ba\x7d/\x7bb=**\x7d".toList, "T".toList)] =
      some ⟨"T".toList, [("b".toList, "x".toList), ("a".toList, "y/z".toList)]⟩ :=
  ⟨by decide, by decide⟩

/-- C2 counterexample.  On the unknown-type exit path the body is closed
zero times, not once: the `defer r.Body.Close()` is registered only after
the early returns. -/
theorem c2_close_counterexample :
    (createMessageFromJSON envNoType ⟨"q.Req".toList, []⟩ [1, 2]).2 = 0 ∧
    (createMessageFromJSON envNoType ⟨"q.Req".toList, []⟩ [1, 2]).1 =
      Except.error BuildErr.unknownType :=
  ⟨rfl, rfl⟩

/-- C2 amended.  The body is closed at most once, and exactly once precisely
when the type resolves and the instance is constructed (the success and
JSON-decode-error paths); the unknown-type and construction-failure paths
return without closing. -/
theorem c2_close_amended {T M : Type} (env : MsgEnv T M) (m : URIMatch) (body : List Nat) :
    (createMessageFromJSON env m body).2 ≤ 1 ∧
    ((createMessageFromJSON env m body).2 = 1 ↔
      ∃ t, env.messageType m.queryInputName = some t ∧ (env.newInstance t).isSome = true) := by
  unfold createMessageFromJSON
  cases hm : env.messageType m.queryInputName with
  | none => simp
  | some t =>
    cases hi : env.newInstance t with
    | none => simp [hi]
    | some msg =>
      cases hd : env.jsonDecode (body.take MaxBodySize) msg with
      | error e => simp [hi, hd]
      | ok m2 => simp [hi, hd]

/-- C3 counterexample.  The template `a/b/` trimmed equals the trimmed path
`a/b`, yet `matchURI` finds no match: the untrimmed key misses the map
lookup, and the trimmed literal template compiles to a regex with no capture
groups, which the `len(matches) > 1` guard rejects. -/
theorem c3_trailing_slash_counterexample :
    trimRightSlash "a/b/".toList = trimRightSlash "a/b".toList ∧
    matchURI "a/b".toList [("a/b/".toList, "T1".toList)] = none :=
  ⟨by decide, by decide⟩

/-- C3 amended.  Matching is insensitive to a trailing separator on the
request path (any table); a template with a trailing separator is trimmed on
the wildcard path, so a wildcard template with a trailing `'/'` still
matches (concrete conjunct), but a literal (no-wildcard) template stored
with a trailing `'/'` matches no path at all. -/
theorem c3_trailing_slash_amended :
    (∀ (uri : List Char) (table : List (List Char × List Char)),
        matchURI (uri ++ ['/']) table = matchURI uri table) ∧
    (∀ (s T uri : List Char),
        (patternToRegex (trimRightSlash (s ++ ['/']))).2 = [] →
        matchURI uri [(s ++ ['/'], T)] = none) ∧
    matchURI "a/b".toList [("a/\x7bx\x7d/".toList, "T2".toList)] =
      some ⟨"T2".toList, [("x".toList, "b".toList)]⟩ := by
  refine ⟨?_, ?_, by decide⟩
  · intro uri table
    simp only [matchURI, trimRightSlash_append_slash]
  · intro s T uri h
    have hf : findVal (trimRightSlash uri) [(s ++ ['/'], T)] = none := by
      simp only [findVal]
      rw [if_neg (fun heq : s ++ ['/'] = trimRightSlash uri =>
        trimRightSlash_no_trailing uri s heq.symm)]
    simp only [matchURI, hf, firstMatch,
      tryPattern_no_wildcards (trimRightSlash uri) (s ++ ['/']) T h]

/-- C3 amended, witness: a concrete path with and without the trailing
slash, and a concrete literal template stored with a trailing slash. -/
theorem c3_trailing_slash_witness :
    matchURI ("q/r".toList ++ ['/']) [("q/\x7by\x7d".toList, "T".toList)] =
      matchURI "q/r".toList [("q/\x7by\x7d".toList, "T".toList)] ∧
    matchURI "a/b".toList [("a/b".toList ++ ['/'], "T1".toList)] = none :=
  ⟨c3_trailing_slash_amended.1 "q/r".toList [("q/\x7by\x7d".toList, "T".toList)],
   c3_trailing_slash_amended.2.1 "a/b".toList "T1".toList "a/b".toList (by decide)⟩

/-- C4 counterexample.  Go's map iteration order is unspecified, so the
table order is an explicit input of the model; the same table enumerated in
two orders (a permutation) yields different matches for a path that two
wildcard templates both match — the result is not a function of
`(path, table)` alone. -/
theorem c4_two_orders_differ :
    ([("a/\x7bx\x7d".toList, "T1".toList), ("\x7by\x7d/b".toList, "T2".toList)] :
        List (List Char × List Char)).Perm
      [("\x7by\x7d/b".toList, "T2".toList), ("a/\x7bx\x7d".toList, "T1".toList)] ∧
    matchURI "a/b".toList
        [("a/\x7bx\x7d".toList, "T1".toList), ("\x7by\x7d/b".toList, "T2".toList)] ≠
      matchURI "a/b".toList
        [("\x7by\x7d/b".toList, "T2".toList), ("a/\x7bx\x7d".toList, "T1".toList)] :=
  ⟨by decide, by decide⟩

/-- C4 amended.  `matchURI` is a pure function of the path and the table
*enumeration*; it mutates nothing, and its result is independent of the
enumeration order whenever at most one table entry's wildcard pattern
matches the trimmed path (in particular whenever the exact-lookup fast path
fires).  With several matching wildcard templates the winner depends on the
unspecified map iteration order. -/
theorem c4_order_independence (uri : List Char) (l1 l2 : List (List Char × List Char))
    (hperm : l1.Perm l2)
    (hkeys : (l1.map Prod.fst).Nodup)
    (huniq : ∀ e1 ∈ l1, ∀ e2 ∈ l1,
      (tryPattern (trimRightSlash uri) e1.1 e1.2).isSome →
      (tryPattern (trimRightSlash uri) e2.1 e2.2).isSome → e1 = e2) :
    matchURI uri l1 = matchURI uri l2 := by
  simp only [matchURI]
  rw [findVal_perm (trimRightSlash uri) hperm hkeys]
  cases findVal (trimRightSlash uri) l2 with
  | some v => rfl
  | none => exact firstMatch_perm _ hperm huniq

/-- C4 amended, witness: a table where only one wildcard template matches;
both enumeration orders give the same result. -/
theorem c4_order_independence_witness :
    matchURI "a/c".toList [("a/b".toList, "T1".toList), ("a/\x7bx\x7d".toList, "T2".toList)] =
      matchURI "a/c".toList [("a/\x7bx\x7d".toList, "T2".toList), ("a/b".toList, "T1".toList)] :=
  c4_order_independence "a/c".toList
    [("a/b".toList, "T1".toList), ("a/\x7bx\x7d".toList, "T2".toList)]
    [("a/\x7bx\x7d".toList, "T2".toList), ("a/b".toList, "T1".toList)]
    (by decide) (by decide) (by decide)

/-- C5.  If the trimmed request path is present verbatim as a key of the
table (whose keys, being Go map keys, are distinct), `matchURI` returns
that key's type name with an empty parameter set — the exact-lookup fast
path runs before any wildcard search, so wildcard templates that would also
match are irrelevant. -/
theorem c5_exact_match_priority (uri T : List Char) (table : List (List Char × List Char))
    (hnd : (table.map Prod.fst).Nodup)
    (hmem : (trimRightSlash uri, T) ∈ table) :
    matchURI uri table = some ⟨T, []⟩ := by
  simp only [matchURI]
  rw [findVal_of_mem (trimRightSlash uri) T table hnd hmem]

/-- C5 witness: the spec's example — table `\x7b"a/b": T1, "a/\x7bx\x7d": T2\x7d` and
path `a/b` resolve to `T1` with no params, although the wildcard template
`a/\x7bx\x7d` would also match the path. -/
theorem c5_exact_match_priority_witness :
    matchURI "a/b".toList [("a/b".toList, "T1".toList), ("a/\x7bx\x7d".toList, "T2".toList)] =
      some ⟨"T1".toList, []⟩ ∧
    tryPattern "a/b".toList "a/\x7bx\x7d".toList "T2".toList ≠ none :=
  ⟨c5_exact_match_priority "a/b".toList "T1".toList
      [("a/b".toList, "T1".toList), ("a/\x7bx\x7d".toList, "T2".toList)] (by decide) (by decide),
   by decide⟩

/-- C6.  A single-segment wildcard `\x7bname\x7d` compiles to `([^/]+)` and so
matches exactly one path segment: `foo/bar/\x7bbaz\x7d` matches `foo/bar/qux`
with `baz ↦ qux`, and does not match `foo/bar/qux/extra`. -/
theorem c6_single_segment_wildcard :
    matchURI "foo/bar/qux".toList [("foo/bar/\x7bbaz\x7d".toList, "T".toList)] =
      some ⟨"T".toList, [("baz".toList, "qux".toList)]⟩ ∧
    matchURI "foo/bar/qux/extra".toList [("foo/bar/\x7bbaz\x7d".toList, "T".toList)] = none :=
  ⟨by decide, by decide⟩

/-- C7.  `createMessageFromJSON` hands the decoder exactly the first
`MaxBodySize = 2^20` bytes of the body: the outcome depends only on that
prefix (bodies agreeing on it are indistinguishable), at most `2^20` bytes
are consumed, and a longer body is truncated to exactly `2^20` bytes rather
than rejected. -/
theorem c7_body_truncation {T M : Type} (env : MsgEnv T M) (m : URIMatch) (b1 b2 : List Nat)
    (h : b1.take MaxBodySize = b2.take MaxBodySize) :
    MaxBodySize = 2 ^ 20 ∧
    (b1.take MaxBodySize).length ≤ MaxBodySize ∧
    (MaxBodySize ≤ b1.length → (b1.take MaxBodySize).length = MaxBodySize) ∧
    createMessageFromJSON env m b1 = createMessageFromJSON env m b2 := by
  refine ⟨by decide, ?_, ?_, ?_⟩
  · simp [List.length_take]
  · intro hlen
    simp only [List.length_take]
    omega
  · unfold createMessageFromJSON
    rw [h]

/-- C7 witness: two bodies one byte apart in length, both beyond the cap,
agree on their first `2^20` bytes and decode identically. -/
theorem c7_body_truncation_witness :
    MaxBodySize = 2 ^ 20 ∧
    ((List.replicate (2 ^ 20 + 1) (0 : Nat)).take MaxBodySize).length ≤ MaxBodySize ∧
    (MaxBodySize ≤ (List.replicate (2 ^ 20 + 1) (0 : Nat)).length →
      ((List.replicate (2 ^ 20 + 1) (0 : Nat)).take MaxBodySize).length = MaxBodySize) ∧
    createMessageFromJSON envResolving ⟨"q.Req".toList, []⟩ (List.replicate (2 ^ 20 + 1) 0) =
      createMessageFromJSON envResolving ⟨"q.Req".toList, []⟩ (List.replicate (2 ^ 20 + 2) 0) :=
  c7_body_truncation envResolving ⟨"q.Req".toList, []⟩
    (List.replicate (2 ^ 20 + 1) 0) (List.replicate (2 ^ 20 + 2) 0)
    (by
      rw [List.take_replicate, List.take_replicate]
      have hM : MaxBodySize = 2 ^ 20 := by decide
      rw [hM, min_eq_left (by omega), min_eq_left (by omega)])

/-- C8.  When the registry cannot resolve the matched type name, both
builders return the unknown-type error to the caller; the model functions
are total, so no input makes them panic. -/
theorem c8_unknown_type {T M : Type} (env : MsgEnv T M) (m : URIMatch) (body : List Nat)
    (h : env.messageType m.queryInputName = none) :
    (createMessageFromJSON env m body).1 = Except.error BuildErr.unknownType ∧
    createMessage env m = Except.error BuildErr.unknownType := by
  unfold createMessageFromJSON createMessage
  rw [h]
  exact ⟨rfl, rfl⟩

/-- C8 witness: a registry that resolves nothing yields the unknown-type
error from both builders. -/
theorem c8_unknown_type_witness :
    (createMessageFromJSON envNoType ⟨"a.B".toList, [("x".toList, "y".toList)]⟩ [7]).1 =
      Except.error BuildErr.unknownType ∧
    createMessage envNoType ⟨"a.B".toList, [("x".toList, "y".toList)]⟩ =
      Except.error BuildErr.unknownType :=
  c8_unknown_type envNoType ⟨"a.B".toList, [("x".toList, "y".toList)]⟩ [7] rfl

/-- C9.  A parameter whose key equals no field's serialization (tag) name is
dropped without error: it leaves the field map unchanged, and (when there
are other params) the whole construction is unchanged; moreover, under the
Go guarantees that struct field names and map keys are distinct, the field
map handed to the decoder is exactly the matched parameters, each sent to
its field's in-memory name with its value. -/
theorem c9_unmatched_params_dropped {T M : Type} (env : MsgEnv T M) (name : List Char)
    (t : T) (ps : List (List Char × List Char)) (k v : List Char)
    (hres : env.messageType name = some t)
    (hfields : ((env.fields t).map FieldDesc.name).Nodup)
    (hkeys : (ps.map Prod.fst).Nodup)
    (hk : ∀ f ∈ env.fields t, ¬ tagName f = some k) :
    buildFieldMap (env.fields t) (ps ++ [(k, v)]) = buildFieldMap (env.fields t) ps ∧
    (ps ≠ [] → createMessage env ⟨name, ps ++ [(k, v)]⟩ = createMessage env ⟨name, ps⟩) ∧
    buildFieldMap (env.fields t) ps =
      ps.filterMap (fun p => (firstField (env.fields t) p.1).map (fun f => (f.name, p.2))) := by
  refine ⟨buildFieldMap_append_unmatched (env.fields t) ps k v hk, ?_,
    buildFieldMap_eq (env.fields t) ps hfields hkeys⟩
  intro hps
  unfold createMessage
  simp only [hres]
  cases env.newInstance t with
  | none => rfl
  | some msg =>
    have h1 : (URIMatch.mk name (ps ++ [(k, v)])).hasParams = true := by
      simp [URIMatch.hasParams]
    have h2 : (URIMatch.mk name ps).hasParams = true := by
      simp [URIMatch.hasParams]
      exact List.length_pos.mpr hps
    simp only [h1, h2, if_pos]
    rw [buildFieldMap_append_unmatched (env.fields t) ps k v hk]

/-- C9 witness: with fields `alpha`/`beta` and a decoder echoing its field
map, the unmatched key `gamma` is dropped and `alpha` is applied. -/
theorem c9_unmatched_params_dropped_witness :
    buildFieldMap (envTwoFields.fields 0)
        ([("alpha".toList, "7".toList)] ++ [("gamma".toList, "9".toList)]) =
      buildFieldMap (envTwoFields.fields 0) [("alpha".toList, "7".toList)] ∧
    (([("alpha".toList, "7".toList)] : List (List Char × List Char)) ≠ [] →
      createMessage envTwoFields
          ⟨"q.Req".toList, [("alpha".toList, "7".toList)] ++ [("gamma".toList, "9".toList)]⟩ =
        createMessage envTwoFields ⟨"q.Req".toList, [("alpha".toList, "7".toList)]⟩) ∧
    buildFieldMap (envTwoFields.fields 0) [("alpha".toList, "7".toList)] =
      ([("alpha".toList, "7".toList)] : List (List Char × List Char)).filterMap
        (fun p => (firstField (envTwoFields.fields 0) p.1).map (fun f => (f.name, p.2))) :=
  c9_unmatched_params_dropped envTwoFields "q.Req".toList 0
    [("alpha".toList, "7".toList)] "gamma".toList "9".toList
    rfl (by decide) (by decide) (by decide)

/-- C10.  A template whose compiled pattern collects no wildcard names has a
regex with no capture groups, so `FindStringSubmatch` can return at most the
full match and the `len(matches) > 1` guard rejects it: such a template can
never be selected on the wildcard-iteration path, and on a table of only
literal templates `matchURI` is exactly the exact-lookup fast path against
the untrimmed keys. -/
theorem c10_literal_only_fast_path :
    (∀ (uri pat name : List Char),
        (patternToRegex (trimRightSlash pat)).2 = [] → tryPattern uri pat name = none) ∧
    (∀ (uri : List Char) (table : List (List Char × List Char)),
        (∀ e ∈ table, (patternToRegex (trimRightSlash e.1)).2 = []) →
        matchURI uri table =
          (findVal (trimRightSlash uri) table).map (fun n => URIMatch.mk n [])) :=
  ⟨tryPattern_no_wildcards, matchURI_all_literal⟩

/-- C10 witness: the literal template `a/b` never matches through the
wildcard loop, and a two-entry literal table behaves as a pure map lookup. -/
theorem c10_literal_only_fast_path_witness :
    tryPattern "a/b".toList "a/b".toList "T".toList = none ∧
    matchURI "a/b".toList [("a/b".toList, "T".toList), ("c/d/".toList, "U".toList)] =
      (findVal (trimRightSlash "a/b".toList)
          [("a/b".toList, "T".toList), ("c/d/".toList, "U".toList)]).map
        (fun n => URIMatch.mk n []) :=
  ⟨c10_literal_only_fast_path.1 "a/b".toList "a/b".toList "T".toList (by decide),
   c10_literal_only_fast_path.2 "a/b".toList
     [("a/b".toList, "T".toList), ("c/d/".toList, "U".toList)] (by decide)⟩
